import Mathlib

/-!
Shallow embedding of src/blogger.js (NeoBlogger).

The JavaScript source is a small client-side blog renderer.  We translate its
data model and operations into executable Lean definitions:

* JSON documents fetched over the network become values supplied by a pure
  fetch environment `FetchEnv` (path to document).  The builtin `new Date`
  parser and `toLocaleString` rendering are part of that environment, as a
  function from the raw timestamp string to a `JsDate` value carrying the
  numeric instant (`valueOf`) and its fixed en-US locale rendering.
* Stateful code (`BlogPostMetaList`) is modelled by explicit state passing.
  JavaScript async functions run synchronously up to their first `await`;
  the state transitions below follow that execution order.
* Strings are manipulated through their character lists, matching the
  JavaScript string operations used by the source (`split`, `replace`,
  `substr`, `lastIndexOf`).
-/

/-- A JavaScript `Date` value: the numeric instant returned by `valueOf`
together with its `toLocaleString` en-US month/day/year rendering. -/
structure JsDate where
  value : Int
  localeString : String
deriving DecidableEq

/-- One entry of the metadata document `posts` array (all raw strings,
`tags` comma-joined), as consumed by the `BlogPostMeta` constructor. -/
structure MetaEntry where
  title : String
  path : String
  created : String
  updated : String
  tags : String
deriving DecidableEq

/-- The metadata JSON document: a mapping with a `posts` array. -/
structure MetaDoc where
  posts : List MetaEntry
deriving DecidableEq

/-- A full post JSON document, as consumed by the `BlogPost` constructor. -/
structure PostDoc where
  title : String
  created : String
  updated : String
  author : String
  tags : String
  content : String
deriving DecidableEq

/-- The pure fetch-and-platform environment: `meta`/`post` give the parsed
JSON document served at a path (`getJsonData`), and `parseDate` is the
JavaScript `new Date(s)` builtin together with the locale rendering used by
`getTimestampHtml`. -/
structure FetchEnv where
  meta : String → MetaDoc
  post : String → PostDoc
  parseDate : String → JsDate

/-- The value of a JavaScript dynamic property access `a[property]`:
absent properties are `undefined`; present ones are strings except `tags`,
which is an array of strings. -/
inductive PropVal where
  | undefined
  | str (s : String)
  | strList (l : List String)
deriving DecidableEq

/-- ToPrimitive coercion used by the JavaScript relational operators:
`undefined` has no ordering (compares like NaN, modelled as `none`);
arrays stringify by joining with commas. -/
def PropVal.toPrim : PropVal → Option String
  | .undefined => none
  | .str s => some s
  | .strList l => some (String.intercalate "," l)

/-- Lexicographic code-unit comparison of character lists, as performed by
the JavaScript `<` operator on strings. -/
def charListLt : List Char → List Char → Bool
  | _, [] => false
  | [], _ :: _ => true
  | a :: as, b :: bs =>
    if a.toNat < b.toNat then true
    else if b.toNat < a.toNat then false
    else charListLt as bs

/-- JavaScript `x < y` on strings. -/
def jsStrLt (x y : String) : Bool := charListLt x.data y.data

/-- JavaScript `a < b` on property values: false whenever either side is
`undefined`, otherwise lexicographic string comparison. -/
def jsLt (a b : PropVal) : Bool :=
  match a.toPrim, b.toPrim with
  | some x, some y => jsStrLt x y
  | _, _ => false

/-- JavaScript `a > b` is the relational comparison with the operands
swapped. -/
def jsGt (a b : PropVal) : Bool := jsLt b a

/-- JavaScript `String.prototype.split(',')` on the underlying characters. -/
def splitOnChar (c : Char) : List Char → List (List Char)
  | [] => [[]]
  | x :: xs =>
    let r := splitOnChar c xs
    if x = c then [] :: r
    else
      match r with
      | [] => [[x]]
      | h :: t => (x :: h) :: t

/-- `s.split(',')` as a list of strings. -/
def jsSplitComma (s : String) : List String :=
  (splitOnChar ',' s.data).map fun l => ⟨l⟩

/-- The `BlogPostMeta` entity: a lightweight handle for one post, built from
one metadata entry (`constructor(directory, data)` in the source). -/
structure BlogPostMeta where
  title : String
  id : String
  path : String
  created : String
  updated : String
  tags : List String
deriving DecidableEq

/-- The `BlogPostMeta` constructor: `id` is the raw `path` field, `path` is
`directory + '/' + data['path']`, timestamps stay raw strings, tags are
comma-split. -/
def BlogPostMeta.ofData (directory : String) (data : MetaEntry) : BlogPostMeta :=
  { title := data.title
    id := data.path
    path := directory ++ "/" ++ data.path
    created := data.created
    updated := data.updated
    tags := jsSplitComma data.tags }

/-- Dynamic bracket access `m[property]` on a `BlogPostMeta` object. -/
def BlogPostMeta.getProp (m : BlogPostMeta) (property : String) : PropVal :=
  if property = "title" then .str m.title
  else if property = "id" then .str m.id
  else if property = "path" then .str m.path
  else if property = "created" then .str m.created
  else if property = "updated" then .str m.updated
  else if property = "tags" then .strList m.tags
  else .undefined

/-- `postSorter(property, reversed)` from the source: a comparator over
metadata objects.  Non-reversed: `a[property] > b[property]` gives 1,
`<` gives -1, otherwise 0.  Reversed: the two branches are swapped. -/
def postSorter (property : String) (reversed : Bool) (a b : BlogPostMeta) : Int :=
  if reversed then
    if jsLt (a.getProp property) (b.getProp property) then 1
    else if jsGt (a.getProp property) (b.getProp property) then -1
    else 0
  else
    if jsGt (a.getProp property) (b.getProp property) then 1
    else if jsLt (a.getProp property) (b.getProp property) then -1
    else 0

/-- The stable comparator sort performed by `Array.prototype.sort(cmp)`:
elements are ordered so that `cmp` is nonpositive on adjacent pairs, equal
elements keeping their relative order (insertion sort is such a stable
sort). -/
def jsSort {α : Type} (cmp : α → α → Int) (l : List α) : List α :=
  @List.insertionSort α (fun a b => cmp a b ≤ 0) (fun a b => Int.decLe (cmp a b) 0) l

/-- The `BlogPost` entity: one fully loaded post, timestamps parsed with
`new Date`, tags comma-split. -/
structure BlogPost where
  title : String
  created : JsDate
  updated : JsDate
  author : String
  tags : List String
  content : String
deriving DecidableEq

/-- The `BlogPost` constructor applied to a parsed post document. -/
def BlogPost.ofData (parseDate : String → JsDate) (data : PostDoc) : BlogPost :=
  { title := data.title
    created := parseDate data.created
    updated := parseDate data.updated
    author := data.author
    tags := jsSplitComma data.tags
    content := data.content }

/-- A JavaScript value handed to `BlogPost.equals`: a real post object,
`null`, or some other value lacking the accessor methods. -/
inductive JsValue where
  | nullVal
  | post (p : BlogPost)
  | plain (descr : String)

/-- The runtime error raised by calling a method on a value that lacks it. -/
inductive JsError where
  | typeError
deriving DecidableEq

/-- Calling `obj.getTitle()`: raises a TypeError unless `obj` is a post. -/
def JsValue.callGetTitle : JsValue → Except JsError String
  | .post p => .ok p.title
  | _ => .error .typeError

/-- Calling `obj.getCreated()`. -/
def JsValue.callGetCreated : JsValue → Except JsError JsDate
  | .post p => .ok p.created
  | _ => .error .typeError

/-- Calling `obj.getUpdated()`. -/
def JsValue.callGetUpdated : JsValue → Except JsError JsDate
  | .post p => .ok p.updated
  | _ => .error .typeError

/-- Calling `obj.getAuthor()`. -/
def JsValue.callGetAuthor : JsValue → Except JsError String
  | .post p => .ok p.author
  | _ => .error .typeError

/-- Calling `obj.getTags()`. -/
def JsValue.callGetTags : JsValue → Except JsError (List String)
  | .post p => .ok p.tags
  | _ => .error .typeError

/-- Calling `obj.getContent()`. -/
def JsValue.callGetContent : JsValue → Except JsError String
  | .post p => .ok p.content
  | _ => .error .typeError

/-- JSON.stringify escaping of one character inside a string literal. -/
def escapeJsonChar (c : Char) : List Char :=
  if c = '"' then ['\\', '"']
  else if c = '\\' then ['\\', '\\']
  else [c]

/-- JSON.stringify of a string. -/
def jsonStringifyStr (s : String) : String :=
  ⟨'"' :: s.data.foldr (fun c acc => escapeJsonChar c ++ acc) ['"']⟩

/-- JSON.stringify of an array of strings, as used to compare tag lists. -/
def jsonStringifyList (l : List String) : String :=
  "[" ++ String.intercalate "," (l.map jsonStringifyStr) ++ "]"

/-- The body of `BlogPost.equals` without its try/catch: the conjunction of
field comparisons with JavaScript short-circuit evaluation, where each
method call on the compared object may raise. -/
def BlogPost.equalsBody (a : BlogPost) (obj : JsValue) : Except JsError Bool := do
  let t ← obj.callGetTitle
  if a.title = t then
    let c ← obj.callGetCreated
    if a.created.value = c.value then
      let u ← obj.callGetUpdated
      if a.updated.value = u.value then
        let au ← obj.callGetAuthor
        if a.author = au then
          let tg ← obj.callGetTags
          if jsonStringifyList a.tags = jsonStringifyList tg then
            let co ← obj.callGetContent
            return a.content = co
          else
            return false
        else
          return false
      else
        return false
    else
      return false
  else
    return false

/-- `BlogPost.equals`: the body wrapped in try/catch, any raised error
turning into the result `false`. -/
def BlogPost.equals (a : BlogPost) (obj : JsValue) : Bool :=
  match a.equalsBody obj with
  | .ok b => b
  | .error _ => false

/-- The `posts` field of a `BlogPostMetaList`: either the still-pending
promise returned by `init()` or the materialised handle array. -/
inductive PostsSlot where
  | pending
  | arr (l : List BlogPostMeta)
deriving DecidableEq

/-- The observable state of a `BlogPostMetaList` object. -/
structure BlogPostMetaList where
  directory : String
  path : String
  initialized : Bool
  posts : PostsSlot
deriving DecidableEq

/-- The `BlogPostMetaList` constructor: stores the directory, computes
`path = directory + file` (no separator), sets `initialized = false` and
then assigns `this.posts = this.init()`.  The async `init` body runs
synchronously up to its first `await`, so by the time the constructor
returns, `initialized` has already been set to `true` and `posts` holds the
pending promise. -/
def BlogPostMetaList.new (file : String) (directory : String) : BlogPostMetaList :=
  { directory := directory
    path := directory ++ file
    initialized := true
    posts := .pending }

/-- `convertToMetadataObject`: builds one `BlogPostMeta` per entry of the
`posts` array, in order. -/
def convertToMetadataObject (directory : String) (data : List MetaEntry) : List BlogPostMeta :=
  data.map (BlogPostMeta.ofData directory)

/-- The continuation of `init()` past its `await`: the metadata fetch
resolves, the handle array is computed and stored in `this.posts`, and the
promise resolves with that array. -/
def BlogPostMetaList.initResume (st : BlogPostMetaList) (env : FetchEnv) :
    BlogPostMetaList × List BlogPostMeta :=
  let data := env.meta st.path
  let metadata := convertToMetadataObject st.directory data.posts
  ({ st with posts := .arr metadata }, metadata)

/-- A full run of `init()`: sets the flag first, then (after the awaited
fetch) stores the converted array. -/
def BlogPostMetaList.init (st : BlogPostMetaList) (env : FetchEnv) :
    BlogPostMetaList × List BlogPostMeta :=
  BlogPostMetaList.initResume { st with initialized := true } env

/-- `getPosts()`: runs `init()` if the flag is unset; otherwise returns
`this.posts` — awaiting it yields the handle array once the in-flight
`init()` promise resolves. -/
def BlogPostMetaList.getPosts (st : BlogPostMetaList) (env : FetchEnv) :
    BlogPostMetaList × List BlogPostMeta :=
  if !st.initialized then st.init env
  else
    match st.posts with
    | .pending => st.initResume env
    | .arr l => (st, l)

/-- `getPostsSorted(attr, reverse)`: retrieves the handle array and calls
`Array.prototype.sort` on it with `postSorter('created', reverse)` — the
`attr` argument is accepted but not forwarded, and the sort happens in
place on the stored array. -/
def BlogPostMetaList.getPostsSorted (st : BlogPostMetaList) (env : FetchEnv)
    (attr : String) (reverse : Bool) : BlogPostMetaList × List BlogPostMeta :=
  let r := st.getPosts env
  let sorted := jsSort (postSorter "created" reverse) r.2
  ({ r.1 with posts := .arr sorted }, sorted)

/-- `getPostsMostRecent()`: delegates to `getPostsSorted('created', false)`. -/
def BlogPostMetaList.getPostsMostRecent (st : BlogPostMetaList) (env : FetchEnv) :
    BlogPostMetaList × List BlogPostMeta :=
  st.getPostsSorted env "created" false

/-- `getTitleHtml`: wraps the title in a level-3 heading. -/
def getTitleHtml (post : BlogPost) : String :=
  "<h3>" ++ post.title ++ "</h3>"

/-- The first paragraph built by `getTimestampHtml`: author and created
date. -/
def createdParagraph (post : BlogPost) : String :=
  "<p class=\"timestamp\">Written by " ++ post.author ++ " on "
    ++ post.created.localeString ++ "</p>"

/-- The second paragraph built by `getTimestampHtml`: the updated date. -/
def updatedParagraph (post : BlogPost) : String :=
  "<p class=\"timestamp\">Updated on " ++ post.updated.localeString ++ "</p>"

/-- `getTimestampHtml`: the created paragraph, followed by the updated
paragraph exactly when `created.valueOf() !== updated.valueOf()`. -/
def getTimestampHtml (post : BlogPost) : String :=
  let updated := if post.created.value ≠ post.updated.value then updatedParagraph post else ""
  createdParagraph post ++ updated

/-- Replaces every occurrence of a character by a replacement string, as the
global-regex `content.replace(/\n/g, ...)` does. -/
def replaceAllChar (c : Char) (rep : List Char) : List Char → List Char
  | [] => []
  | x :: xs =>
    if x = c then rep ++ replaceAllChar c rep xs
    else x :: replaceAllChar c rep xs

/-- `getBodyHtml`: paragraph-wraps the content, turning each newline into a
close-then-open paragraph boundary. -/
def getBodyHtml (post : BlogPost) : String :=
  "<p>" ++ (⟨replaceAllChar '\n' "</p><p>".data post.content.data⟩ : String) ++ "</p>"

/-- `getPostHtml(postMeta, contentOnly)`: resolves the handle (a fresh fetch
of its path plus `BlogPost` construction) and concatenates the three
renderers, wrapped in an article tag unless `contentOnly`. -/
def getPostHtml (env : FetchEnv) (postMeta : BlogPostMeta) (contentOnly : Bool) : String :=
  let post := BlogPost.ofData env.parseDate (env.post postMeta.path)
  if contentOnly then
    getTitleHtml post ++ getTimestampHtml post ++ getBodyHtml post
  else
    "<article>" ++ getTitleHtml post ++ getTimestampHtml post ++ getBodyHtml post ++ "</article>"

/-- The string the unawaited promise returned by `getPostFromUrl()` turns
into when it reaches string concatenation or the `innerHTML` setter:
`getBlogPosts` initialises `content` with `getPostFromUrl()` and no
`await`, so the accumulator starts as this coerced value rather than the
empty string the stub resolves to. -/
def promiseString : String := "[object Promise]"

/-- `getBlogPosts(domId, directory, file, maxPosts, sortBy, reverse)`: the
string assigned to the target element.  `maxPosts` is accepted but
unimplemented; the handle list is retrieved sorted and each handle is
resolved and rendered sequentially in that order, appended to the
accumulator. -/
def getBlogPosts (env : FetchEnv) (directory file : String) (maxPosts : Int)
    (sortBy : String) (reverse : Bool) : String :=
  let postList := ((BlogPostMetaList.new file directory).getPostsSorted env sortBy reverse).2
  postList.foldl (fun content pm => content ++ getPostHtml env pm false) promiseString

/-- Index of the last occurrence of a character in a character list. -/
def lastIdxOf (c : Char) : List Char → Option Nat
  | [] => none
  | x :: xs =>
    match lastIdxOf c xs with
    | some k => some (k + 1)
    | none => if x = c then some 0 else none

/-- JavaScript `content.lastIndexOf(" ")`: the last index, or -1. -/
def jsLastIndexOf (c : Char) (l : List Char) : Int :=
  match lastIdxOf c l with
  | some k => (k : Int)
  | none => -1

/-- JavaScript `content.substr(0, len)` on the characters: a nonpositive
length yields the empty string. -/
def jsTakeLen (l : List Char) (len : Int) : List Char :=
  l.take len.toNat

/-- Removal of the first occurrence of a (nonempty) pattern, as performed by
`String.prototype.replace(pattern, '')` with a string pattern. -/
def replaceOnce (pat : List Char) : List Char → List Char
  | [] => []
  | c :: cs =>
    if pat.isPrefixOf (c :: cs) then (c :: cs).drop pat.length
    else c :: replaceOnce pat cs

/-- The Read More anchor appended by `latestBlogPost`, referencing the post
id with `.json` replaced away. -/
def readMoreLink (strippedId : String) : String :=
  "<a href=\"blog.html?id=\x27" ++ strippedId ++ "\x27\"><i>Read More</i></a>"

/-- The truncation performed by `latestBlogPost` on the rendered HTML of the
first handle: with a nonnegative `maxChars` the string is cut to `maxChars`
characters, and if the cut string still has exactly `maxChars` characters
it is further cut at `min(length, lastIndexOf(" "))`; the Read More link is
then appended. -/
def latestContent (env : FetchEnv) (pm : BlogPostMeta) (maxChars : Int)
    (contentOnly : Bool) : List Char :=
  let content := (getPostHtml env pm contentOnly).data
  if 0 ≤ maxChars then
    let t := jsTakeLen content maxChars
    let t2 :=
      if (t.length : Int) = maxChars then
        jsTakeLen t (min (t.length : Int) (jsLastIndexOf ' ' t))
      else t
    t2 ++ (readMoreLink ⟨replaceOnce ".json".data pm.id.data⟩).data
  else content

/-- `latestBlogPost(domId, directory, file, maxChars, contentOnly)`: the
string assigned to the target element, or `none` when the handle list is
empty (indexing `postList[0]` then calling a method on `undefined`
throws). -/
def latestBlogPost (env : FetchEnv) (directory file : String) (maxChars : Int)
    (contentOnly : Bool) : Option String :=
  match ((BlogPostMetaList.new file directory).getPostsSorted env "created" true).2 with
  | [] => none
  | pm :: _ => some ⟨latestContent env pm maxChars contentOnly⟩

/-- Sample date value used by the concrete fetch environments. -/
def dateW : JsDate := { value := 1642636800000, localeString := "January 20, 2022" }

/-- Sample post document served for every post path in the concrete
environments. -/
def postDocW : PostDoc :=
  { title := "T"
    created := "2022-01-20"
    updated := "2022-01-20"
    author := "Au"
    tags := "x,y"
    content := "hello world again" }

/-- Metadata entry with the later created date. -/
def entryA : MetaEntry :=
  { title := "A", path := "a.json", created := "2022-01-22", updated := "2022-01-22", tags := "x" }

/-- Metadata entry with the earlier created date. -/
def entryB : MetaEntry :=
  { title := "B", path := "b.json", created := "2022-01-20", updated := "2022-01-20", tags := "y" }

/-- Environment serving a two-entry metadata document whose entries are not
in ascending created order. -/
def envC : FetchEnv :=
  { meta := fun _ => { posts := [entryA, entryB] }
    post := fun _ => postDocW
    parseDate := fun _ => dateW }

/-- Environment serving a single-entry metadata document. -/
def envOne : FetchEnv :=
  { meta := fun _ => { posts := [entryA] }
    post := fun _ => postDocW
    parseDate := fun _ => dateW }

/-- Environment serving a metadata document with an empty posts array. -/
def envEmptyPosts : FetchEnv :=
  { meta := fun _ => { posts := [] }
    post := fun _ => postDocW
    parseDate := fun _ => dateW }

/-- Sample handles with created values 2022-01-20 / 21 / 22, as in the
comparator ordering test of the specification. -/
def h20 : BlogPostMeta :=
  { title := "t20", id := "p20.json", path := "d/p20.json"
    created := "2022-01-20", updated := "2022-01-20", tags := ["x"] }

/-- Handle with created value 2022-01-21. -/
def h21 : BlogPostMeta :=
  { title := "t21", id := "p21.json", path := "d/p21.json"
    created := "2022-01-21", updated := "2022-01-21", tags := ["x"] }

/-- Handle with created value 2022-01-22. -/
def h22 : BlogPostMeta :=
  { title := "t22", id := "p22.json", path := "d/p22.json"
    created := "2022-01-22", updated := "2022-01-22", tags := ["x"] }

example : jsSplitComma "a,b, c" = ["a", "b", " c"] := by decide
example : jsSplitComma "" = [""] := by decide
example : jsLt (.str "2022-01-20") (.str "2022-01-21") = true := by decide
example : postSorter "created" false
    (BlogPostMeta.ofData "d" ⟨"a", "a.json", "2022-01-20", "x", "t"⟩)
    (BlogPostMeta.ofData "d" ⟨"b", "b.json", "2022-01-21", "x", "t"⟩) = -1 := by decide

/-! Helper lemmas. -/

/-- Bridge between the character comparison used by the embedding and the
order on characters. -/
theorem char_toNat_lt_iff (a b : Char) : a.toNat < b.toNat ↔ a < b := by
  rw [Char.lt_def, UInt32.lt_def, BitVec.lt_def]
  exact Iff.rfl

/-- The executable lexicographic comparison agrees with the inductive
lexicographic order on character lists. -/
theorem charListLt_iff : ∀ l₁ l₂ : List Char, charListLt l₁ l₂ = true ↔ List.lt l₁ l₂ := by
  intro l₁
  induction l₁ with
  | nil =>
    intro l₂
    cases l₂ with
    | nil =>
      refine iff_of_false ?_ (fun h => by cases h)
      intro h
      rw [show charListLt [] [] = false from rfl] at h
      cases h
    | cons b bs =>
      exact iff_of_true rfl (List.lt.nil b bs)
  | cons a as ih =>
    intro l₂
    cases l₂ with
    | nil =>
      refine iff_of_false ?_ (fun h => by cases h)
      intro h
      rw [show charListLt (a :: as) [] = false from rfl] at h
      cases h
    | cons b bs =>
      have hstep : charListLt (a :: as) (b :: bs)
          = if a.toNat < b.toNat then true
            else if b.toNat < a.toNat then false
            else charListLt as bs := rfl
      by_cases h1 : a.toNat < b.toNat
      · refine iff_of_true ?_ (List.lt.head as bs ((char_toNat_lt_iff a b).mp h1))
        rw [hstep, if_pos h1]
      · by_cases h2 : b.toNat < a.toNat
        · refine iff_of_false ?_ ?_
          · intro h
            rw [hstep, if_neg h1, if_pos h2] at h
            cases h
          · intro h
            cases h with
            | head _ _ hab => exact h1 ((char_toNat_lt_iff a b).mpr hab)
            | tail hab hba _ => exact hba ((char_toNat_lt_iff b a).mpr h2)
        · rw [hstep, if_neg h1, if_neg h2]
          constructor
          · intro h
            exact List.lt.tail (fun hab => h1 ((char_toNat_lt_iff a b).mpr hab))
              (fun hba => h2 ((char_toNat_lt_iff b a).mpr hba)) ((ih bs).mp h)
          · intro h
            cases h with
            | head _ _ hab => exact absurd ((char_toNat_lt_iff a b).mpr hab) h1
            | tail _ _ htl => exact (ih bs).mpr htl

/-- The JavaScript string comparison of the embedding agrees with the
string order. -/
theorem jsStrLt_iff (x y : String) : jsStrLt x y = true ↔ x < y := by
  have h := charListLt_iff x.data y.data
  rw [List.lt_iff_lex_lt] at h
  rw [String.lt_iff_toList_lt]
  exact h

/-- Dynamic access of field `created` returns the stored created string. -/
theorem getProp_created (m : BlogPostMeta) : m.getProp "created" = PropVal.str m.created := rfl

/-- `jsLt` on two present string properties is the string comparison. -/
theorem jsLt_str (x y : String) : jsLt (.str x) (.str y) = jsStrLt x y := rfl

/-! Claim theorems. -/

/-- C1: for every field name `attr` and reverse flag, `getPostsSorted`
sorts the handle sequence with the comparator bound to the field
`created`; the `attr` argument is accepted but never influences the
result. -/
theorem getPostsSorted_ignores_attr (st : BlogPostMetaList) (env : FetchEnv)
    (attr : String) (reverse : Bool) :
    st.getPostsSorted env attr reverse = st.getPostsSorted env "created" reverse ∧
    (st.getPostsSorted env attr reverse).2
      = jsSort (postSorter "created" reverse) (st.getPosts env).2 :=
  ⟨rfl, rfl⟩

/-- C2 counterexample: a freshly constructed index does not have a false
initialization flag with an empty stored sequence — the constructor has
already started `init()`, which set the flag, and the posts field holds the
pending promise. -/
theorem freshIndex_not_lazy :
    ¬ ((BlogPostMetaList.new "meta.json" "dir/").initialized = false ∧
       (BlogPostMetaList.new "meta.json" "dir/").posts = PostsSlot.arr []) := by
  decide

/-- C2 amended: construction eagerly begins initialization, so the flag is
already true and the posts field holds the pending promise rather than an
empty array; after one retrieval call the flag is still true and the stored
sequence length equals the length of the `posts` array of the fetched
metadata document. -/
theorem freshIndex_eager_init (file directory : String) (env : FetchEnv) :
    (BlogPostMetaList.new file directory).initialized = true ∧
    (BlogPostMetaList.new file directory).posts = PostsSlot.pending ∧
    ((BlogPostMetaList.new file directory).getPosts env).1.initialized = true ∧
    ((BlogPostMetaList.new file directory).getPosts env).2.length
      = (env.meta (directory ++ file)).posts.length ∧
    ((BlogPostMetaList.new file directory).getPosts env).1.posts
      = PostsSlot.arr ((BlogPostMetaList.new file directory).getPosts env).2 := by
  refine ⟨rfl, rfl, rfl, ?_, rfl⟩
  simp [BlogPostMetaList.getPosts, BlogPostMetaList.new, BlogPostMetaList.initResume,
    convertToMetadataObject]

/-- C3 counterexample: `getPostsSorted` does not leave the stored sequence
in original metadata order — `Array.prototype.sort` works in place, so for a
metadata document whose entries are not already ascending the stored
sequence changes. -/
theorem getPostsSorted_mutates_stored :
    ¬ (((BlogPostMetaList.new "m.json" "d/").getPostsSorted envC "created" false).1.posts
        = PostsSlot.arr (convertToMetadataObject "d/" (envC.meta "d/m.json").posts)) := by
  decide

/-- C3 amended: `getPostsSorted` sorts the stored array in place — after the
call, the stored sequence is the comparator-sorted permutation of the
metadata entries (equal to the original order only when already sorted),
and the returned sequence is that stored sorted sequence. -/
theorem getPostsSorted_sorts_in_place (file directory attr : String) (reverse : Bool)
    (env : FetchEnv) :
    (((BlogPostMetaList.new file directory).getPostsSorted env attr reverse).1).posts
      = PostsSlot.arr (jsSort (postSorter "created" reverse)
          (convertToMetadataObject directory (env.meta (directory ++ file)).posts)) ∧
    (((BlogPostMetaList.new file directory).getPostsSorted env attr reverse).2).Perm
      (convertToMetadataObject directory (env.meta (directory ++ file)).posts) :=
  ⟨rfl, List.perm_insertionSort _ _⟩

/-- C4: `getBlogPosts` initialises its accumulator with the unawaited
promise returned by `getPostFromUrl()`, so the string written to the target
element is `[object Promise]` followed by the rendered posts — not the bare
concatenation the specification describes.  Evaluated at an empty metadata
document and at a one-entry document. -/
theorem getBlogPosts_writes_promise_prefix :
    getBlogPosts envEmptyPosts "d/" "m.json" 5 "created" true = "[object Promise]" ∧
    getBlogPosts envOne "d/" "m.json" 5 "created" true
      = "[object Promise]" ++ getPostHtml envOne (BlogPostMeta.ofData "d/" entryA) false ∧
    getBlogPosts envEmptyPosts "d/" "m.json" 5 "created" true ≠ "" := by
  refine ⟨rfl, rfl, ?_⟩
  decide

/-- C6: `getPostsMostRecent` delegates to sorted retrieval by `created`
with `reverse = false` (ascending). -/
theorem getPostsMostRecent_eq_sorted_created_asc (st : BlogPostMetaList) (env : FetchEnv) :
    st.getPostsMostRecent env = st.getPostsSorted env "created" false :=
  rfl

/-- C8: `equals` compared against `null` or an object without the accessor
methods yields `false` rather than propagating the TypeError the body
raises — the body does raise, and the try/catch turns it into `false`. -/
theorem equals_false_on_malformed (a : BlogPost) (descr : String) :
    BlogPost.equals a JsValue.nullVal = false ∧
    BlogPost.equals a (JsValue.plain descr) = false ∧
    BlogPost.equalsBody a JsValue.nullVal = Except.error JsError.typeError ∧
    BlogPost.equalsBody a (JsValue.plain descr) = Except.error JsError.typeError :=
  ⟨rfl, rfl, rfl, rfl⟩

/-- C10: the reversed comparator is exactly the argument-swapped
non-reversed comparator, for every property name and all objects. -/
theorem postSorter_reversed_swaps_arguments (p : String) (a b : BlogPostMeta) :
    postSorter p true a b = postSorter p false b a :=
  rfl

/-- C7: the timestamp renderer appends the updated paragraph exactly when
the two instants differ under strict inequality on the underlying value;
when they are identical the output is exactly the single created
paragraph. -/
theorem getTimestampHtml_second_paragraph_iff (p : BlogPost) :
    getTimestampHtml p
      = createdParagraph p
        ++ (if p.created.value = p.updated.value then "" else updatedParagraph p) ∧
    (getTimestampHtml p = createdParagraph p ↔ p.created.value = p.updated.value) ∧
    (getTimestampHtml p = createdParagraph p ++ updatedParagraph p
      ↔ p.created.value ≠ p.updated.value) := by
  have hnil : ("" : String).data = [] := rfl
  have hcancel : ∀ x y : String, x ++ y = x → y = "" := by
    intro x y hxy
    apply String.ext
    have hd := congrArg String.data hxy
    rw [String.data_append] at hd
    rw [hnil]
    exact List.append_cancel_left (hd.trans (List.append_nil x.data).symm)
  have hne : updatedParagraph p ≠ "" := by
    intro h
    have hd := congrArg String.data h
    rw [hnil] at hd
    simp only [updatedParagraph, String.data_append] at hd
    rcases List.append_eq_nil.mp hd with ⟨h1, h2⟩
    exact absurd h2 (by decide)
  by_cases h : p.created.value = p.updated.value
  · have hts : getTimestampHtml p = createdParagraph p := by
      simp [getTimestampHtml, h]
    refine ⟨?_, ?_, ?_⟩
    · rw [hts, if_pos h, String.append_empty]
    · rw [hts]
      exact ⟨fun _ => h, fun _ => rfl⟩
    · rw [hts]
      constructor
      · intro heq
        exact absurd (hcancel _ _ heq.symm) hne
      · intro hcon
        exact absurd h hcon
  · have hts : getTimestampHtml p = createdParagraph p ++ updatedParagraph p := by
      simp [getTimestampHtml, h]
    refine ⟨?_, ?_, ?_⟩
    · rw [hts, if_neg h]
    · rw [hts]
      constructor
      · intro heq
        exact absurd (hcancel _ _ heq) hne
      · intro hcon
        exact absurd hcon h
    · rw [hts]
      exact ⟨fun _ => h, fun _ => rfl⟩

/-- C9: the comparator built for field `created` orders ascending when
`reverse` is false and descending when true, returning 0 exactly on ties of
the compared values; sorting the three sample handles with the stable sort
yields 20, 21, 22 for `reverse = false` and 22, 21, 20 for
`reverse = true`. -/
theorem postSorter_created_ordering :
    (∀ a b : BlogPostMeta,
      (postSorter "created" false a b = 1 ↔ b.created < a.created) ∧
      (postSorter "created" false a b = -1 ↔ a.created < b.created) ∧
      (postSorter "created" false a b = 0
        ↔ ¬ b.created < a.created ∧ ¬ a.created < b.created) ∧
      (postSorter "created" true a b = 1 ↔ a.created < b.created) ∧
      (postSorter "created" true a b = -1 ↔ b.created < a.created) ∧
      (postSorter "created" true a b = 0
        ↔ ¬ b.created < a.created ∧ ¬ a.created < b.created)) ∧
    jsSort (postSorter "created" false) [h20, h22, h21] = [h20, h21, h22] ∧
    jsSort (postSorter "created" true) [h20, h22, h21] = [h22, h21, h20] := by
  refine ⟨?_, by decide, by decide⟩
  intro a b
  have hstepT : postSorter "created" true a b
      = if jsStrLt a.created b.created then (1 : Int)
        else if jsStrLt b.created a.created then -1
        else 0 := rfl
  have hstepF : postSorter "created" false a b
      = if jsStrLt b.created a.created then (1 : Int)
        else if jsStrLt a.created b.created then -1
        else 0 := rfl
  by_cases hab : a.created < b.created
  · have hab' : jsStrLt a.created b.created = true := (jsStrLt_iff _ _).mpr hab
    have hba : ¬ b.created < a.created := lt_asymm hab
    have hba' : ¬ (jsStrLt b.created a.created = true) :=
      fun hx => hba ((jsStrLt_iff _ _).mp hx)
    have hvf : postSorter "created" false a b = -1 := by
      rw [hstepF, if_neg hba', if_pos hab']
    have hvt : postSorter "created" true a b = 1 := by
      rw [hstepT, if_pos hab']
    rw [hvf, hvt]
    exact ⟨iff_of_false (by decide) hba, iff_of_true rfl hab,
      iff_of_false (by decide) (fun hx => hx.2 hab),
      iff_of_true rfl hab, iff_of_false (by decide) hba,
      iff_of_false (by decide) (fun hx => hx.2 hab)⟩
  · by_cases hba : b.created < a.created
    · have hba' : jsStrLt b.created a.created = true := (jsStrLt_iff _ _).mpr hba
      have hab' : ¬ (jsStrLt a.created b.created = true) :=
        fun hx => hab ((jsStrLt_iff _ _).mp hx)
      have hvf : postSorter "created" false a b = 1 := by
        rw [hstepF, if_pos hba']
      have hvt : postSorter "created" true a b = -1 := by
        rw [hstepT, if_neg hab', if_pos hba']
      rw [hvf, hvt]
      exact ⟨iff_of_true rfl hba, iff_of_false (by decide) hab,
        iff_of_false (by decide) (fun hx => hx.1 hba),
        iff_of_false (by decide) hab, iff_of_true rfl hba,
        iff_of_false (by decide) (fun hx => hx.1 hba)⟩
    · have hab' : ¬ (jsStrLt a.created b.created = true) :=
        fun hx => hab ((jsStrLt_iff _ _).mp hx)
      have hba' : ¬ (jsStrLt b.created a.created = true) :=
        fun hx => hba ((jsStrLt_iff _ _).mp hx)
      have hvf : postSorter "created" false a b = 0 := by
        rw [hstepF, if_neg hba', if_neg hab']
      have hvt : postSorter "created" true a b = 0 := by
        rw [hstepT, if_neg hab', if_neg hba']
      rw [hvf, hvt]
      exact ⟨iff_of_false (by decide) hba, iff_of_false (by decide) hab,
        iff_of_true rfl ⟨hba, hab⟩,
        iff_of_false (by decide) hab, iff_of_false (by decide) hba,
        iff_of_true rfl ⟨hba, hab⟩⟩

/-- When `lastIdxOf` finds nothing, the character does not occur. -/
theorem lastIdxOf_none_spec (c : Char) :
    ∀ l : List Char, lastIdxOf c l = none → ∀ j : Nat, l[j]? ≠ some c := by
  intro l
  induction l with
  | nil =>
    intro _ j
    simp
  | cons x xs ih =>
    intro h j
    have hstep : lastIdxOf c (x :: xs)
        = match lastIdxOf c xs with
          | some k => some (k + 1)
          | none => if x = c then some 0 else none := rfl
    rw [hstep] at h
    cases hx : lastIdxOf c xs with
    | some m =>
      rw [hx] at h
      cases h
    | none =>
      rw [hx] at h
      by_cases hxc : x = c
      · rw [if_pos hxc] at h
        cases h
      · rw [if_neg hxc] at h
        cases j with
        | zero =>
          simp only [List.getElem?_cons_zero]
          intro hc
          exact hxc (Option.some.inj hc)
        | succ j' =>
          simp only [List.getElem?_cons_succ]
          exact ih hx j'

/-- Specification of `lastIdxOf`: the returned index is in range, holds the
character, and no later index does. -/
theorem lastIdxOf_spec (c : Char) :
    ∀ (l : List Char) (k : Nat), lastIdxOf c l = some k →
      k < l.length ∧ l[k]? = some c ∧ ∀ j : Nat, k < j → l[j]? ≠ some c := by
  intro l
  induction l with
  | nil =>
    intro k h
    cases h
  | cons x xs ih =>
    intro k h
    have hstep : lastIdxOf c (x :: xs)
        = match lastIdxOf c xs with
          | some m => some (m + 1)
          | none => if x = c then some 0 else none := rfl
    rw [hstep] at h
    cases hx : lastIdxOf c xs with
    | some m =>
      rw [hx] at h
      have hk : k = m + 1 := (Option.some.inj h).symm
      obtain ⟨hm1, hm2, hm3⟩ := ih m hx
      subst hk
      refine ⟨Nat.succ_lt_succ hm1, by simpa using hm2, ?_⟩
      intro j hj
      cases j with
      | zero => omega
      | succ j' =>
        simp only [List.getElem?_cons_succ]
        exact hm3 j' (Nat.lt_of_succ_lt_succ hj)
    | none =>
      rw [hx] at h
      by_cases hxc : x = c
      · rw [if_pos hxc] at h
        have hk : k = 0 := (Option.some.inj h).symm
        subst hk
        refine ⟨Nat.succ_pos _, by simp [hxc], ?_⟩
        intro j hj
        cases j with
        | zero => omega
        | succ j' =>
          simp only [List.getElem?_cons_succ]
          exact lastIdxOf_none_spec c xs hx j'
      · rw [if_neg hxc] at h
        cases h

/-- Removing the first occurrence of a nonempty pattern from `base ++ pat`
yields `base` when no occurrence starts inside `base`. -/
theorem replaceOnce_append (pat : List Char) (hne : pat ≠ []) :
    ∀ base : List Char,
      (∀ i : Nat, i < base.length → pat.isPrefixOf ((base ++ pat).drop i) = false) →
      replaceOnce pat (base ++ pat) = base := by
  intro base
  induction base with
  | nil =>
    intro _
    cases pat with
    | nil => exact absurd rfl hne
    | cons p ps =>
      have hstep : replaceOnce (p :: ps) ([] ++ (p :: ps))
          = if (p :: ps).isPrefixOf (p :: ps) then ((p :: ps).drop (p :: ps).length)
            else p :: replaceOnce (p :: ps) ps := rfl
      rw [hstep, if_pos (by simp [List.isPrefixOf_iff_prefix]), List.drop_length]
  | cons b bs ih =>
    intro hfirst
    have h0 : pat.isPrefixOf (b :: (bs ++ pat)) = false := by
      have := hfirst 0 (by simp)
      simpa using this
    have hstep : replaceOnce pat (b :: (bs ++ pat))
        = if pat.isPrefixOf (b :: (bs ++ pat)) then ((b :: (bs ++ pat)).drop pat.length)
          else b :: replaceOnce pat (bs ++ pat) := by
      cases pat with
      | nil => exact absurd rfl hne
      | cons p ps => rfl
    have hgoal : replaceOnce pat ((b :: bs) ++ pat) = replaceOnce pat (b :: (bs ++ pat)) := rfl
    rw [hgoal, hstep, h0]
    simp only [Bool.false_eq_true, if_false]
    have hrec : ∀ i : Nat, i < bs.length → pat.isPrefixOf ((bs ++ pat).drop i) = false := by
      intro i hi
      have := hfirst (i + 1) (by simpa using Nat.succ_lt_succ hi)
      simpa using this
    rw [ih hrec]

/-- Computation of `latestContent` when the rendered HTML is longer than the
nonnegative character limit and the truncated prefix contains a space: the
result is the prefix up to the last space of the truncated prefix, followed
by the Read More link for the id with its first `.json` occurrence
removed. -/
theorem latestContent_truncates (env : FetchEnv) (pm : BlogPostMeta) (contentOnly : Bool)
    (maxChars k : Nat)
    (hlong : maxChars < (getPostHtml env pm contentOnly).data.length)
    (hspace : lastIdxOf ' ' ((getPostHtml env pm contentOnly).data.take maxChars) = some k) :
    latestContent env pm (maxChars : Int) contentOnly
      = (getPostHtml env pm contentOnly).data.take k
        ++ (readMoreLink ⟨replaceOnce ".json".data pm.id.data⟩).data := by
  have hk1 : k < maxChars := by
    have h := (lastIdxOf_spec ' ' _ k hspace).1
    rw [List.length_take] at h
    omega
  have h0 : (0 : Int) ≤ (maxChars : Int) := Int.natCast_nonneg maxChars
  have ht : jsTakeLen (getPostHtml env pm contentOnly).data ((maxChars : Nat) : Int)
      = (getPostHtml env pm contentOnly).data.take maxChars := by
    simp [jsTakeLen]
  have hlen : ((getPostHtml env pm contentOnly).data.take maxChars).length = maxChars := by
    rw [List.length_take]
    omega
  have hidx : jsLastIndexOf ' ' ((getPostHtml env pm contentOnly).data.take maxChars)
      = (k : Int) := by
    simp [jsLastIndexOf, hspace]
  have hmin : min ((maxChars : Nat) : Int) ((k : Nat) : Int) = ((k : Nat) : Int) := by
    rw [min_eq_right]
    exact_mod_cast Nat.le_of_lt hk1
  have hcut : jsTakeLen ((getPostHtml env pm contentOnly).data.take maxChars) ((k : Nat) : Int)
      = (getPostHtml env pm contentOnly).data.take k := by
    simp [jsTakeLen, List.take_take, Nat.min_eq_left (Nat.le_of_lt hk1)]
  simp only [latestContent]
  rw [if_pos h0, ht, hlen]
  rw [if_pos rfl, hidx, hmin, hcut]

/-- C5: when the rendered HTML of the newest post is longer than the
nonnegative character limit, the cut falls mid-word (a space occurs in the
truncated prefix, the last one at index `k`), and the first `.json`
occurrence in the post id is its trailing suffix, `latestBlogPost` writes
the prefix of the rendered HTML up to that last preceding space (hence at
most `maxChars` characters, ending at a word boundary with no later space
before the cut) followed by the Read More link referencing the id with the
`.json` suffix stripped. -/
theorem latestBlogPost_truncation (env : FetchEnv) (directory file : String)
    (contentOnly : Bool) (maxChars k : Nat) (pm : BlogPostMeta) (rest : List BlogPostMeta)
    (base : List Char)
    (hhead : ((BlogPostMetaList.new file directory).getPostsSorted env "created" true).2
      = pm :: rest)
    (hlong : maxChars < (getPostHtml env pm contentOnly).data.length)
    (hspace : lastIdxOf ' ' ((getPostHtml env pm contentOnly).data.take maxChars) = some k)
    (hid : pm.id.data = base ++ ".json".data)
    (hfirst : ∀ i : Nat, i < base.length
      → ".json".data.isPrefixOf ((base ++ ".json".data).drop i) = false) :
    latestBlogPost env directory file (maxChars : Int) contentOnly
      = some ⟨(getPostHtml env pm contentOnly).data.take k ++ (readMoreLink ⟨base⟩).data⟩ ∧
    k < maxChars ∧
    (getPostHtml env pm contentOnly).data[k]? = some ' ' ∧
    ∀ j : Nat, k < j → j < maxChars → (getPostHtml env pm contentOnly).data[j]? ≠ some ' ' := by
  obtain ⟨hk1, hk2, hk3⟩ := lastIdxOf_spec ' ' _ k hspace
  have hklt : k < maxChars := by
    rw [List.length_take] at hk1
    omega
  refine ⟨?_, hklt, ?_, ?_⟩
  · have hstrip : replaceOnce ".json".data pm.id.data = base := by
      rw [hid]
      exact replaceOnce_append ".json".data (by decide) base hfirst
    simp only [latestBlogPost, hhead]
    rw [latestContent_truncates env pm contentOnly maxChars k hlong hspace, hstrip]
  · rw [List.getElem?_take_of_lt hklt] at hk2
    exact hk2
  · intro j hkj hjm
    have := hk3 j hkj
    rw [List.getElem?_take_of_lt hjm] at this
    exact this

/-- C5 witness: a concrete one-post environment, limit 50 cutting inside the
word January of the timestamp paragraph; the last preceding space sits at
index 47 and the id `a.json` strips to `a`. -/
theorem latestBlogPost_truncation_witness :
    (((BlogPostMetaList.new "m.json" "d/").getPostsSorted envOne "created" true).2
      = BlogPostMeta.ofData "d/" entryA :: []) ∧
    50 < (getPostHtml envOne (BlogPostMeta.ofData "d/" entryA) true).data.length ∧
    lastIdxOf ' ' ((getPostHtml envOne (BlogPostMeta.ofData "d/" entryA) true).data.take 50)
      = some 47 ∧
    (BlogPostMeta.ofData "d/" entryA).id.data = "a".data ++ ".json".data ∧
    (∀ i : Nat, i < "a".data.length
      → ".json".data.isPrefixOf (("a".data ++ ".json".data).drop i) = false) ∧
    (latestBlogPost envOne "d/" "m.json" ((50 : Nat) : Int) true
      = some ⟨(getPostHtml envOne (BlogPostMeta.ofData "d/" entryA) true).data.take 47
          ++ (readMoreLink ⟨"a".data⟩).data⟩ ∧
     47 < 50 ∧
     (getPostHtml envOne (BlogPostMeta.ofData "d/" entryA) true).data[47]? = some ' ' ∧
     ∀ j : Nat, 47 < j → j < 50
      → (getPostHtml envOne (BlogPostMeta.ofData "d/" entryA) true).data[j]? ≠ some ' ') :=
  ⟨by decide, by decide, by decide, by decide, by decide,
    latestBlogPost_truncation envOne "d/" "m.json" true 50 47
      (BlogPostMeta.ofData "d/" entryA) [] "a".data
      (by decide) (by decide) (by decide) (by decide) (by decide)⟩
